import Mathlib

/-!
Verification of the per-cell UMI-deduplication core of `irescue/count.py`.

The Python functions `connect_umis`, `pathfinder`, `compute_cell_counts`,
the matrix-line writer of `run_count` and the merge step `formatMM` are
embedded as executable Lean definitions; theorems below settle the frozen
claims about them.
-/

namespace Irescue

/-- An equivalence class of one cell: UMI byte sequence, set of feature ids
and read count.  This is the `(UMI, TE, count) : (str, set, int)` tuple of
`count.py` (`parse_maps` output); read counts are natural numbers, cast to
`Int` where the code does integer arithmetic on them. -/
structure EqCl where
  umi : List Nat
  ft : Finset Nat
  c : Nat
deriving DecidableEq, Inhabited

/-- Number of mismatching positions of two UMIs over the zipped (common)
positions: `sum(1 for i, j in zip(x[0], y[0]) if i != j)` in `connect_umis`. -/
def mismatches (u v : List Nat) : Nat :=
  ((u.zip v).filter (fun p => decide (p.1 ≠ p.2))).length

/-- `connect_umis(x, y, threshold)` from `count.py` (the callers use the
default `threshold=1`): x connects to y iff `x[2] >= 2*y[2] - 1`, the feature
sets intersect (Python set truthiness), and the zipped Hamming distance is at
most the threshold. -/
def connect_umis (x y : EqCl) (threshold : Nat) : Bool :=
  decide (2 * (y.c : Int) - 1 ≤ (x.c : Int)) &&
  decide (x.ft ∩ y.ft ≠ ∅) &&
  decide (mismatches x.umi y.umi ≤ threshold)

/-- Ordered pairs of distinct indices `0..n-1`, in the order produced by
`itertools.permutations(enumerate(equivalence_classes), 2)`. -/
def permPairs (n : Nat) : List (Nat × Nat) :=
  (List.range n).flatMap
    (fun i => ((List.range n).filter (fun j => decide (j ≠ i))).map (fun j => (i, j)))

/-- The edges inserted by the `for x, y in permutations(...)` loop of
`compute_cell_counts`: ordered pairs of distinct indices whose equivalence
classes satisfy `connect_umis` (with the default threshold 1). -/
def edgeList (ecs : List EqCl) : List (Nat × Nat) :=
  (permPairs ecs.length).filter
    (fun p => connect_umis (ecs.getD p.1 default) (ecs.getD p.2 default) 1)

/-- A directed graph over (a subset of) a cell's equivalence-class indices:
the node list in iteration order, per-node feature set and read count
(node attributes `'ft'` and `'c'`), and the edge relation.  `networkx`
subgraphs and copies keep the node order and the attribute functions, so a
subgraph is the same structure with a restricted node list. -/
structure Subg where
  nodes : List Nat
  ft : Nat → Finset Nat
  c : Nat → Nat
  edge : Nat → Nat → Bool

/-- The cell-wide deduplication graph built by `compute_cell_counts`:
nodes `0..n-1` with their equivalence-class annotations and the
`connect_umis` edges. -/
def buildGraph (ecs : List EqCl) : Subg where
  nodes := List.range ecs.length
  ft := fun i => (ecs.getD i default).ft
  c := fun i => (ecs.getD i default).c
  edge := fun i j => decide ((i, j) ∈ edgeList ecs)

/-- `graph.successors(node)`: the nodes still present with an edge from
`node`, in node-iteration order. -/
def succs (g : Subg) (v : Nat) : List Nat :=
  g.nodes.filter (fun u => g.edge v u)

/-- `graph.predecessors(node)`: the nodes still present with an edge to
`node`, in node-iteration order. -/
def preds (g : Subg) (v : Nat) : List Nat :=
  g.nodes.filter (fun u => g.edge u v)

/-- Spec-side Hamming distance of two UMIs "over positions where both are
defined": positions below both lengths at which the sequences differ. -/
def hammingSpec (u v : List Nat) : Nat :=
  (List.range (min u.length v.length)).countP (fun k => decide (u.getD k 0 ≠ v.getD k 0))

/-- The `if not features: features = graph.nodes[node]['ft']` step at the top
of `pathfinder`: a missing (`None`) or empty anchor set is replaced by the
start node's own feature set. -/
def resolveAnchor (g : Subg) (node : Nat) : Option (Finset Nat) → Finset Nat
  | none => g.ft node
  | some s => if s = ∅ then g.ft node else s

/-- Fuel-indexed embedding of the recursive `pathfinder`: append the node to
the path, then walk the successors in order, recursing into each successor
whose feature set meets the anchor and which is not yet on the path; the
recursion passes the anchor `f` unchanged.  The fuel only bounds the
recursion depth; `pathfinder` below supplies enough fuel for any input (each
nested call adds a fresh graph node to the path, so the depth never exceeds
the number of nodes plus one). -/
def pfF (g : Subg) : Nat → Nat → List Nat → Option (Finset Nat) → List Nat
  | 0, _, path, _ => path
  | fuel + 1, node, path, features =>
    let f := resolveAnchor g node features
    (succs g node).foldl
      (fun p s => if f ∩ g.ft s ≠ ∅ ∧ s ∉ p then pfF g fuel s p (some f) else p)
      (path ++ [node])

/-- `pathfinder(graph, node, path, features)` from `count.py`. -/
def pathfinder (g : Subg) (node : Nat) (path : List Nat) (features : Option (Finset Nat)) :
    List Nat :=
  pfF g (g.nodes.length + 1) node path features

/-- `{g with nodes := l}` helper: `subg_copy.remove_node(x)` for every node of
a found path. -/
def removeNodes (g : Subg) (path : List Nat) : Subg :=
  { g with nodes := path.foldl (fun ns x => ns.erase x) g.nodes }

/-- The per-parent loop body of `compute_cell_counts`: walk the iteration
list, skip blacklisted nodes, otherwise run `pathfinder` on the current
working copy, blacklist and remove the resulting path's nodes and record the
path.  Arguments: iteration list, working copy of the subgraph, blacklist,
accumulated paths. -/
def findPathsGo : List Nat → Subg → List Nat → List (List Nat) → List (List Nat)
  | [], _, _, acc => acc
  | node :: rest, g, bl, acc =>
    if node ∈ bl then findPathsGo rest g bl acc
    else
      let path := pathfinder g node [] none
      findPathsGo rest (removeNodes g path) (bl ++ path) (acc ++ [path])

/-- The path configuration enumerated for one candidate parent:
`nodes = [parent] + [x for x in subg_copy if x != parent]` followed by the
blacklist loop. -/
def findPaths (g : Subg) (parent : Nat) : List (List Nat) :=
  findPathsGo (parent :: g.nodes.filter (fun x => decide (x ≠ parent))) g [] []

/-- `[x for x in subg if not list(subg.predecessors(x))]`: the nodes with no
incoming edge in the subgraph. -/
def parentsRaw (g : Subg) : List Nat :=
  g.nodes.filter (fun v => decide (preds g v = []))

/-- The parent list actually iterated: the parentless nodes, or every node
when there is none (`if not parents: parents = list(subg.nodes)`). -/
def parentsOf (g : Subg) : List Nat :=
  if parentsRaw g = [] then g.nodes else parentsRaw g

/-- One path configuration per candidate parent, in parent iteration order
(the `paths` dict of `compute_cell_counts`). -/
def parentConfigs (g : Subg) : List (List (List Nat)) :=
  (parentsOf g).map (findPaths g)

/-- Python's `min` over a list of naturals (`0` on the empty list, which the
code never hits). -/
def listMin : List Nat → Nat
  | [] => 0
  | a :: rest => rest.foldl min a

/-- `min([len(x) for x in paths.values()])`. -/
def minPaths (g : Subg) : Nat :=
  listMin ((parentConfigs g).map List.length)

/-- The selected path configuration:
`[paths[k] for k, v in paths.items() if len(v) == min(...)][0]` — the first
configuration, in parent iteration order, whose path count is minimal. -/
def pathConfig (g : Subg) : List (List Nat) :=
  ((parentConfigs g).filter (fun cfg => decide (cfg.length = minPaths g))).headD []

/-- `set.union(*[subg.nodes[x]['ft'] for x in subg])`: union of all nodes'
feature sets of a subgraph. -/
def unionFt (g : Subg) : Finset Nat :=
  g.nodes.foldl (fun a v => a ∪ g.ft v) ∅

/-- The feature set assigned to each path of the selected configuration: the
path's starting node's feature set in the normal case, or — when no parent
node exists — the union feature set replicated once per path
(`features = [...]` / `features *= len(path_config)`). -/
def assignedFeatures (g : Subg) : List (Finset Nat) :=
  if parentsRaw g = [] then List.replicate (pathConfig g).length (unionFt g)
  else (pathConfig g).map (fun p => g.ft (p.headD 0))

/-- Edge of the undirected view `graph.to_undirected()`. -/
def undirAdj (g : Subg) (u v : Nat) : Bool :=
  g.edge u v || g.edge v u

/-- One expansion step of undirected reachability: add every node adjacent to
the current set. -/
def expand (g : Subg) (cur : List Nat) : List Nat :=
  cur ++ g.nodes.filter (fun v => decide (v ∉ cur) && cur.any (fun u => undirAdj g u v))

/-- Iterated expansion (enough iterations reach a fixpoint). -/
def closure (g : Subg) : Nat → List Nat → List Nat
  | 0, cur => cur
  | k + 1, cur => closure g k (expand g cur)

/-- The weakly-connected component of a start node. -/
def compFrom (g : Subg) (s : Nat) : List Nat :=
  closure g g.nodes.length [s]

/-- `nx.connected_components(graph.to_undirected())`: scan the nodes in
order, emitting the component of each not-yet-seen node. -/
def componentsGo (g : Subg) : List Nat → List Nat → List (List Nat)
  | [], _ => []
  | v :: rest, seen =>
    if v ∈ seen then componentsGo g rest seen
    else compFrom g v :: componentsGo g rest (seen ++ compFrom g v)

/-- `[graph.subgraph(x) for x in nx.connected_components(...)]`: the induced
subgraphs, node order inherited from the full graph. -/
def componentsOf (g : Subg) : List Subg :=
  (componentsGo g g.nodes []).map
    (fun comp => { g with nodes := g.nodes.filter (fun v => decide (v ∈ comp)) })

/-- `row = [1 if x in feats else 0 for x in range(1, number_of_features+1)]`:
the 0/1 indicator row appended to `em_array` for an ambiguous path. -/
def emRow (nf : Nat) (feats : Finset Nat) : List Nat :=
  (List.range' 1 nf).map (fun x => if x ∈ feats then 1 else 0)

/-- `collections.Counter` update `counts[k] += v`: an association list keyed
by feature id, keeping first-insertion order. -/
def addCount : List (Nat × ℚ) → Nat → ℚ → List (Nat × ℚ)
  | [], k, v => [(k, v)]
  | (k', v') :: rest, k, v =>
    if k' = k then (k', v' + v) :: rest else (k', v') :: addCount rest k v

/-- The attribute keys each node carries: `compute_cell_counts` annotates
nodes with `{'ft': ..., 'c': ...}` (line `graph.add_nodes_from`). -/
def nodeAttrKeys : List String := ["ft", "c"]

/-- The read-count log line of the error branch,
`[subg.nodes[x]['count'] for x in subg.nodes]`: the lookup of the attribute
key `"count"` succeeds only if that key exists on the nodes; the nodes only
carry `"ft"` and `"c"`, so the lookup raises `KeyError` (modelled as
`none`). -/
def readCountLog (g : Subg) : Option (List Nat) :=
  if "count" ∈ nodeAttrKeys then some (g.nodes.map g.c) else none

/-- How a cell's processing aborts in the empty-feature-set branch: either
the `KeyError` raised while logging (key looked up, logs already emitted at
that point), or the intended fatal "no common features" error after the full
subgraph state was logged. -/
inductive CellError where
  | keyError (key : String) (adj : List (Nat × List Nat)) (fts : List (Finset Nat))
  | fatal (adj : List (Nat × List Nat)) (fts : List (Finset Nat))
      (readCounts : List Nat) (cfg : List (List Nat)) (features : List (Finset Nat))
deriving DecidableEq

/-- The error branch of the `for feats in features` loop: log the subgraph's
adjacency (`nx.to_dict_of_lists`), the nodes' feature sets, then the read
counts — which raises `KeyError` since the attribute is stored as `'c'`, not
`'count'`; were that read to succeed, the branch would go on to log the path
configuration and features and raise the fatal error. -/
def mkError (g : Subg) (cfg : List (List Nat)) (features : List (Finset Nat)) : CellError :=
  let adj := g.nodes.map (fun v => (v, succs g v))
  let fts := g.nodes.map g.ft
  match readCountLog g with
  | none => .keyError "count" adj fts
  | some rcs => .fatal adj fts rcs cfg features

/-- `feats[0]` as read by `counts[feats[0]] += 1.0`: the code only reads it
when `len(feats) == 1`, where the first list element of the set is its unique
element — extracted here as the sum over the singleton. -/
def singletonVal (fs : Finset Nat) : Nat :=
  fs.sum id

/-- The `for feats in features` count-assignment loop for one subgraph:
a singleton feature set increments that feature's count by `1.0`, a larger
one appends an EM indicator row, an empty one aborts the cell. -/
def solveSubg (nf : Nat) (g : Subg) (acc : List (Nat × ℚ) × List (List Nat)) :
    Except CellError (List (Nat × ℚ) × List (List Nat)) :=
  (assignedFeatures g).foldlM
    (fun a fs =>
      if fs.card = 1 then Except.ok (addCount a.1 (singletonVal fs) 1, a.2)
      else if 1 < fs.card then Except.ok (a.1, a.2 ++ [emRow nf fs])
      else Except.error (mkError g (pathConfig g) (assignedFeatures g)))
    acc

/-- `compute_cell_counts` up to the EM call: build the cell graph, split it
into weakly-connected subgraphs and run the deduplication/count assignment on
each, returning the directly assigned counts and the `em_array` rows (the EM
solver is invoked afterwards iff `em_array` is nonempty). -/
def compute_cell_counts (nf : Nat) (ecs : List EqCl) :
    Except CellError (List (Nat × ℚ) × List (List Nat)) :=
  (componentsOf (buildGraph ecs)).foldlM (fun acc g => solveSubg nf g acc) ([], [])

/-- Round-half-to-even on rationals, the semantics of Python's `round`. -/
def roundHalfEven (q : ℚ) : Int :=
  let n := ⌊q⌋
  if q - n < 1 / 2 then n
  else if (1 : ℚ) / 2 < q - n then n + 1
  else if 2 ∣ n then n else n + 1

/-- `round(count, 3)`. -/
def round3 (q : ℚ) : ℚ :=
  ((roundHalfEven (q * 1000) : Int) : ℚ) / 1000

/-- The matrix shard lines written by `run_count` for one cell: one
`(feature, barcodeIndex, count)` triple per feature whose count is at least
`0.001`, the count rounded to three decimals. -/
def matrixLines (cellcounts : List (Nat × ℚ)) (cellidx : Nat) : List (Nat × Nat × ℚ) :=
  (cellcounts.filter (fun p => decide ((1 : ℚ) / 1000 ≤ p.2))).map
    (fun p => (p.1, cellidx, round3 p.2))

/-- A sparse-matrix entry `featureId barcodeIndex count` as written to a
shard file. -/
abbrev MEntry := Nat × Nat × ℚ

/-- The comparison applied by `LC_ALL=C sort -k2,2n -k1,1n` to the matrix
lines: numerically by the second field (barcode index), then by the first
field (feature id); full ties fall back to the remaining line bytes, i.e.
the count field. -/
def entryLE (a b : MEntry) : Bool :=
  decide (a.2.1 < b.2.1 ∨ (a.2.1 = b.2.1 ∧ (a.1 < b.1 ∨ (a.1 = b.1 ∧ a.2.2 ≤ b.2.2))))

/-- Insertion step of the sort. -/
def insEntry (a : MEntry) : List MEntry → List MEntry
  | [] => [a]
  | b :: l => if entryLE a b then a :: b :: l else b :: insEntry a l

/-- The external sort of the concatenated shard lines. -/
def sortEntries : List MEntry → List MEntry
  | [] => []
  | a :: l => insEntry a (sortEntries l)

/-- `formatMM` from `count.py`: the header records the feature count, the
total barcode count over all chunks, and the total line (nonzero entry)
count over all shard files; the body is the concatenation of the shards
sorted by `sort -k2,2n -k1,1n`. -/
def formatMM (shards : List (List MEntry)) (nFeatures : Nat) (chunkSizes : List Nat) :
    (Nat × Nat × Nat) × List MEntry :=
  ((nFeatures, chunkSizes.sum, (shards.map List.length).sum), sortEntries shards.flatten)

/-- The output order the spec claims: feature index first, barcode second. -/
def sortedByFeatureThenBarcode (l : List MEntry) : Prop :=
  l.Pairwise (fun a b => a.1 < b.1 ∨ (a.1 = b.1 ∧ a.2.1 ≤ b.2.1))

/-- The output order the code produces: barcode index first, feature
second. -/
def sortedByBarcodeThenFeature (l : List MEntry) : Prop :=
  l.Pairwise (fun a b => a.2.1 < b.2.1 ∨ (a.2.1 = b.2.1 ∧ a.1 ≤ b.1))

/-- A pure bidirectional 2-cycle subgraph (both edge directions present, so
no node is parentless), with feature sets `{1}` and `{2}` and read count 1 on
both nodes: the concrete edge-case shape named by the spec. -/
def cyc2 : Subg where
  nodes := [0, 1]
  ft := fun v => if v = 0 then {1} else {2}
  c := fun _ => 1
  edge := fun i j => decide (i ≠ j) && decide (i < 2) && decide (j < 2)

/-- A three-node chain `0 → 1 → 2` on which the anchor {10} of node 0 meets
node 2's features although node 1's features do not: exercises the
"anchor never narrows" walk. -/
def chain3 : Subg where
  nodes := [0, 1, 2]
  ft := fun v => if v = 0 then {10, 11} else if v = 1 then {10, 12} else {10}
  c := fun v => if v = 0 then 4 else if v = 1 then 2 else 1
  edge := fun i j => decide (j = i + 1) && decide (j < 3)

/-- Number of graph nodes not yet on a path: the measure bounding the
recursion depth of `pathfinder`. -/
def rem (g : Subg) (q : List Nat) : Nat :=
  (g.nodes.filter (fun x => decide (x ∉ q))).length

/-! ## General lemmas -/

theorem foldl_extends {α β : Type} (step : List α → β → List α)
    (hstep : ∀ a b, a <+: step a b) :
    ∀ (l : List β) (a : List α), a <+: List.foldl step a l := by
  intro l
  induction l with
  | nil => intro a; exact List.prefix_rfl
  | cons b l ih => intro a; exact (hstep a b).trans (ih (step a b))

theorem foldl_inv {α β : Type} (P : α → Prop) (step : α → β → α) :
    ∀ (l : List β), (∀ b ∈ l, ∀ a, P a → P (step a b)) → ∀ a, P a → P (List.foldl step a l) := by
  intro l
  induction l with
  | nil => intro _ a ha; exact ha
  | cons b l ih =>
    intro hstep a ha
    exact ih (fun c hc => hstep c (List.mem_cons_of_mem b hc)) (step a b)
      (hstep b (List.mem_cons_self b l) a ha)

theorem mem_succs (g : Subg) (v u : Nat) (h : u ∈ succs g v) : u ∈ g.nodes :=
  (List.mem_filter.mp h).1

/-! ## Lemmas about the pathfinder walk -/

theorem pfF_extends (g : Subg) :
    ∀ (fuel node : Nat) (path : List Nat) (features : Option (Finset Nat)),
    path <+: pfF g fuel node path features := by
  intro fuel
  induction fuel with
  | zero => intro node path features; exact List.prefix_rfl
  | succ fuel ih =>
    intro node path features
    simp only [pfF]
    refine List.IsPrefix.trans ⟨[node], rfl⟩ (foldl_extends _ ?_ _ _)
    intro a b
    dsimp only
    split
    · exact ih b a _
    · exact List.prefix_rfl

theorem pfF_extends_succ (g : Subg) (fuel node : Nat) (path : List Nat)
    (features : Option (Finset Nat)) :
    path ++ [node] <+: pfF g (fuel + 1) node path features := by
  simp only [pfF]
  refine foldl_extends _ ?_ _ _
  intro a b
  dsimp only
  split
  · exact pfF_extends g fuel b a _
  · exact List.prefix_rfl

theorem pfF_mem (g : Subg) :
    ∀ (fuel node : Nat) (path : List Nat) (features : Option (Finset Nat)) (x : Nat),
    x ∈ pfF g fuel node path features → x ∈ path ∨ x = node ∨ x ∈ g.nodes := by
  intro fuel
  induction fuel with
  | zero => intro node path features x hx; exact Or.inl hx
  | succ fuel ih =>
    intro node path features x hx
    simp only [pfF] at hx
    refine foldl_inv (fun a => ∀ y ∈ a, y ∈ path ∨ y = node ∨ y ∈ g.nodes) _
      (succs g node) ?_ (path ++ [node]) ?_ x hx
    · intro b hb a ha y hy
      split at hy
      · rcases ih b a _ y hy with h | h | h
        · exact ha y h
        · exact Or.inr (Or.inr (h ▸ mem_succs g node b hb))
        · exact Or.inr (Or.inr h)
      · exact ha y hy
    · intro y hy
      rcases List.mem_append.mp hy with h | h
      · exact Or.inl h
      · exact Or.inr (Or.inl (List.mem_singleton.mp h))

theorem pfF_nodup (g : Subg) :
    ∀ (fuel node : Nat) (path : List Nat) (features : Option (Finset Nat)),
    (path ++ [node]).Nodup → (pfF g fuel node path features).Nodup := by
  intro fuel
  induction fuel with
  | zero =>
    intro node path features h
    exact (List.nodup_append.mp h).1
  | succ fuel ih =>
    intro node path features h
    simp only [pfF]
    refine foldl_inv List.Nodup _ (succs g node) ?_ (path ++ [node]) h
    intro b _ a ha
    dsimp only
    split
    · rename_i hc
      refine ih b a _ (List.nodup_append.mpr ⟨ha, List.nodup_singleton b, ?_⟩)
      intro x hx hb
      rw [List.mem_singleton.mp hb] at hx
      exact hc.2 hx
    · exact ha

theorem pfF_anchor (g : Subg) :
    ∀ (fuel node : Nat) (path : List Nat) (f : Finset Nat), f.Nonempty →
    ∀ x ∈ pfF g fuel node path (some f),
      x ∈ path ∨ x = node ∨ (f ∩ g.ft x).Nonempty := by
  intro fuel
  induction fuel with
  | zero => intro node path f _ x hx; exact Or.inl hx
  | succ fuel ih =>
    intro node path f hf x hx
    have hres : resolveAnchor g node (some f) = f := by
      simp only [resolveAnchor]
      rw [if_neg (Finset.nonempty_iff_ne_empty.mp hf)]
    simp only [pfF, hres] at hx
    refine foldl_inv (fun a => ∀ y ∈ a, y ∈ path ∨ y = node ∨ (f ∩ g.ft y).Nonempty) _
      (succs g node) ?_ (path ++ [node]) ?_ x hx
    · intro b _ a ha y hy
      split at hy
      · rename_i hc
        rcases ih b a f hf y hy with h | h | h
        · exact ha y h
        · exact Or.inr (Or.inr (h ▸ Finset.nonempty_iff_ne_empty.mpr hc.1))
        · exact Or.inr (Or.inr h)
      · exact ha y hy
    · intro y hy
      rcases List.mem_append.mp hy with h | h
      · exact Or.inl h
      · exact Or.inr (Or.inl (List.mem_singleton.mp h))

theorem eraseAll_spec (path : List Nat) :
    ∀ (l : List Nat), l.Nodup →
    ((path.foldl (fun ns x => ns.erase x) l).Nodup ∧
     ∀ y, y ∈ path.foldl (fun ns x => ns.erase x) l ↔ y ∈ l ∧ y ∉ path) := by
  induction path with
  | nil => intro l hl; exact ⟨hl, fun y => by simp⟩
  | cons a path ih =>
    intro l hl
    obtain ⟨h1, h2⟩ := ih (l.erase a) (hl.erase a)
    refine ⟨h1, fun y => ?_⟩
    show y ∈ path.foldl (fun ns x => ns.erase x) (l.erase a) ↔ _
    rw [h2 y, List.Nodup.mem_erase_iff hl]
    constructor
    · rintro ⟨⟨hy1, hy2⟩, hy3⟩
      exact ⟨hy2, by simp [hy1, hy3]⟩
    · rintro ⟨hy1, hy2⟩
      simp only [List.mem_cons, not_or] at hy2
      exact ⟨⟨hy2.1, hy1⟩, hy2.2⟩

theorem mismatches_eq_hammingSpec (u v : List Nat) : mismatches u v = hammingSpec u v := by
  induction u generalizing v with
  | nil => simp [mismatches, hammingSpec]
  | cons a u ih =>
    cases v with
    | nil => simp [mismatches, hammingSpec]
    | cons b v =>
      have hz : (a :: u).zip (b :: v) = (a, b) :: u.zip v := rfl
      have h1 : mismatches (a :: u) (b :: v)
          = mismatches u v + (if a ≠ b then 1 else 0) := by
        simp only [mismatches, hz, List.filter_cons]
        by_cases hab : a = b <;> simp [hab]
      have h2 : hammingSpec (a :: u) (b :: v)
          = hammingSpec u v + (if a ≠ b then 1 else 0) := by
        simp only [hammingSpec, List.length_cons, Nat.succ_min_succ,
          List.range_succ_eq_map, List.countP_cons, List.countP_map]
        have : ((fun k => decide ((a :: u).getD k 0 ≠ (b :: v).getD k 0)) ∘ Nat.succ)
            = fun k => decide (u.getD k 0 ≠ v.getD k 0) := rfl
        rw [this]
        by_cases hab : a = b <;> simp [hab, Nat.add_comm]
      rw [h1, h2, ih]

theorem mem_permPairs (n i j : Nat) :
    (i, j) ∈ permPairs n ↔ i < n ∧ j < n ∧ j ≠ i := by
  simp only [permPairs, List.mem_flatMap, List.mem_map, List.mem_filter, List.mem_range,
    decide_eq_true_eq]
  constructor
  · rintro ⟨i', hi', j', ⟨hj', hne⟩, h⟩
    simp only [Prod.mk.injEq] at h
    exact ⟨h.1 ▸ hi', h.2 ▸ hj', h.1 ▸ h.2 ▸ hne⟩
  · rintro ⟨hi, hj, hne⟩
    exact ⟨i, hi, j, ⟨hj, hne⟩, rfl⟩

/-! ## Claim C1: edge construction -/

/-- C1: for distinct equivalence classes x (index i) and y (index j) of one
cell, the deduplication graph has the edge i→j iff count(x) ≥ 2·count(y) − 1,
the feature sets of x and y intersect, and the Hamming distance of the UMIs
over the positions where both are defined is at most the default threshold 1;
and no self-edge is ever added. -/
theorem edge_iff_spec (ecs : List EqCl) (i j : Nat) (hi : i < ecs.length)
    (hj : j < ecs.length) :
    ((buildGraph ecs).edge i j = true ↔
      (i ≠ j ∧
       2 * ((ecs[j].c : Int)) - 1 ≤ (ecs[i].c : Int) ∧
       (∃ t, t ∈ ecs[i].ft ∧ t ∈ ecs[j].ft) ∧
       hammingSpec ecs[i].umi ecs[j].umi ≤ 1)) ∧
    (buildGraph ecs).edge i i = false := by
  have key : ∀ a b : Nat, ((buildGraph ecs).edge a b = true ↔
      ((a, b) ∈ permPairs ecs.length ∧
        connect_umis (ecs.getD a default) (ecs.getD b default) 1 = true)) := by
    intro a b
    simp [buildGraph, edgeList, List.mem_filter]
  constructor
  · rw [key i j, mem_permPairs]
    have hgi : ecs.getD i default = ecs[i] := List.getD_eq_getElem ecs default hi
    have hgj : ecs.getD j default = ecs[j] := List.getD_eq_getElem ecs default hj
    rw [hgi, hgj]
    simp only [connect_umis, Bool.and_eq_true, decide_eq_true_eq]
    rw [mismatches_eq_hammingSpec]
    constructor
    · rintro ⟨⟨_, _, hne⟩, ⟨hc, hft⟩, hham⟩
      refine ⟨fun h => hne h.symm, hc, ?_, hham⟩
      obtain ⟨t, ht⟩ := Finset.nonempty_iff_ne_empty.mpr hft
      exact ⟨t, (Finset.mem_inter.mp ht).1, (Finset.mem_inter.mp ht).2⟩
    · rintro ⟨hne, hc, ⟨t, ht1, ht2⟩, hham⟩
      refine ⟨⟨hi, hj, fun h => hne h.symm⟩, ⟨hc, ?_⟩, hham⟩
      exact Finset.nonempty_iff_ne_empty.mp ⟨t, Finset.mem_inter.mpr ⟨ht1, ht2⟩⟩
  · rw [Bool.eq_false_iff]
    intro h
    rw [key i i, mem_permPairs] at h
    exact h.1.2.2 rfl

/-- Witness for C1 at the spec's end-to-end example: classes
`("AAAAA", {1}, 5)` and `("AAAAT", {1,2}, 2)` (bytes as numbers), whose edge
0→1 exists. -/
theorem edge_iff_spec_witness :
    (buildGraph [⟨[1, 1, 1, 1, 1], {1}, 5⟩, ⟨[1, 1, 1, 1, 2], {1, 2}, 2⟩]).edge 0 1 = true := by
  have h := edge_iff_spec [⟨[1, 1, 1, 1, 1], {1}, 5⟩, ⟨[1, 1, 1, 1, 2], {1, 2}, 2⟩]
    0 1 (by decide) (by decide)
  exact h.1.mpr (by refine ⟨by decide, by decide, ⟨1, by decide, by decide⟩, by decide⟩)

/-! ## Claim C10: bidirectional connection forces counts ≤ 1 -/

/-- C10: if `connect_umis` holds in both directions between two equivalence
classes, both read counts are at most 1 (so a bidirectional cycle can arise
only among classes of read count 0 or 1). -/
theorem bidirectional_counts_le_one (x y : EqCl)
    (hxy : connect_umis x y 1 = true) (hyx : connect_umis y x 1 = true) :
    x.c ≤ 1 ∧ y.c ≤ 1 := by
  simp only [connect_umis, Bool.and_eq_true, decide_eq_true_eq] at hxy hyx
  have h1 := hxy.1.1
  have h2 := hyx.1.1
  omega

/-- Witness for C10: two classes with count 1, intersecting features and UMI
distance 1, connected in both directions. -/
theorem bidirectional_counts_le_one_witness :
    (⟨[5], {1}, 1⟩ : EqCl).c ≤ 1 ∧ (⟨[6], {1, 2}, 1⟩ : EqCl).c ≤ 1 :=
  bidirectional_counts_le_one ⟨[5], {1}, 1⟩ ⟨[6], {1, 2}, 1⟩ (by decide) (by decide)

/-! ## Claim C4: single-class cells -/

/-- C4 counterexample: a cell with exactly one equivalence class whose
feature set has two features produces no direct count at all and a nonempty
`em_array` — the EM solver is invoked, contradicting the claim as stated. -/
theorem single_class_multifeature_em :
    compute_cell_counts 2 [⟨[], {1, 2}, 1⟩] = .ok ([], [[1, 1]]) ∧
    ([[1, 1]] : List (List Nat)) ≠ [] := ⟨rfl, by decide⟩

/-- C4 amended: for every equivalence-class list with exactly one element
whose feature set is a singleton `{f}`, per-cell counting yields exactly
`f ↦ 1.0` and the EM array stays empty (the EM solver is never invoked). -/
theorem single_class_singleton_count (u : List Nat) (f c nf : Nat) :
    compute_cell_counts nf [⟨u, {f}, c⟩] = .ok ([(f, 1)], []) := rfl

/-! ## Claim C8: empty-feature-set error branch -/

/-- C8: on a cell whose single equivalence class has an empty feature set,
the error branch is reached, but instead of logging the full subgraph state
(adjacency, feature sets, read counts, path configuration) and raising the
fatal internal-consistency error, the code aborts early with a `KeyError`:
the read-count log line accesses node attribute key `"count"` while the
nodes store the count under `"c"`.  Only the adjacency and the feature sets
are logged before the abort. -/
theorem empty_feats_keyError :
    compute_cell_counts 1 [⟨[], ∅, 1⟩]
      = .error (.keyError "count" [(0, [])] [∅]) ∧
    ∀ adj fts rcs cfg features, compute_cell_counts 1 [⟨[], ∅, 1⟩]
      ≠ .error (.fatal adj fts rcs cfg features) := by
  refine ⟨rfl, fun adj fts rcs cfg features h => ?_⟩
  rw [show compute_cell_counts 1 [⟨[], ∅, 1⟩]
      = .error (.keyError "count" [(0, [])] [∅]) from rfl] at h
  exact absurd (Except.error.inj h) (by intro hc; cases hc)

/-! ## Claim C9: materialization threshold and rounding -/

theorem roundHalfEven_ge_floor (q : ℚ) : ⌊q⌋ ≤ roundHalfEven q := by
  show ⌊q⌋ ≤ if q - (⌊q⌋ : ℚ) < 1 / 2 then ⌊q⌋
    else if (1 : ℚ) / 2 < q - (⌊q⌋ : ℚ) then ⌊q⌋ + 1
    else if 2 ∣ ⌊q⌋ then ⌊q⌋ else ⌊q⌋ + 1
  split_ifs <;> omega

theorem round3_nonneg (c : ℚ) (h : (1 : ℚ) / 1000 ≤ c) : 0 ≤ round3 c := by
  have h1 : (1 : ℤ) ≤ ⌊c * 1000⌋ := by
    rw [Int.le_floor]
    push_cast
    linarith
  have h2 : (1 : ℤ) ≤ roundHalfEven (c * 1000) := le_trans h1 (roundHalfEven_ge_floor _)
  unfold round3
  have h3 : (0 : ℚ) ≤ (roundHalfEven (c * 1000) : ℚ) := by exact_mod_cast le_trans (by omega) h2
  positivity

/-- C9: an entry is written to the matrix shard for a feature iff its count
is at least 0.001; the written value is the count rounded to three decimals
(in the triple order featureId, barcodeIndex, count), and no written value is
negative. -/
theorem matrixLines_spec (cc : List (Nat × ℚ)) (idx f i : Nat) (v : ℚ) :
    ((f, i, v) ∈ matrixLines cc idx ↔
      ∃ c, (f, c) ∈ cc ∧ (1 : ℚ) / 1000 ≤ c ∧ i = idx ∧ v = round3 c) ∧
    (∀ e ∈ matrixLines cc idx, 0 ≤ e.2.2) := by
  constructor
  · simp only [matrixLines, List.mem_map, List.mem_filter, decide_eq_true_eq]
    constructor
    · rintro ⟨⟨pf, pc⟩, ⟨hm, hge⟩, heq⟩
      simp only [Prod.mk.injEq] at heq
      exact ⟨pc, heq.1 ▸ hm, hge, heq.2.1.symm, heq.2.2.symm⟩
    · rintro ⟨c, hm, hge, rfl, rfl⟩
      exact ⟨(f, c), ⟨hm, hge⟩, rfl⟩
  · intro e he
    simp only [matrixLines, List.mem_map, List.mem_filter, decide_eq_true_eq] at he
    obtain ⟨p, ⟨_, hge⟩, rfl⟩ := he
    exact round3_nonneg p.2 hge

/-- Witness for C9: the count 1/2 of feature 1 is materialized for barcode 3
as a nonnegative rounded value. -/
theorem matrixLines_spec_witness :
    (1, 3, (1 : ℚ) / 2) ∈ matrixLines [(1, 1 / 2)] 3 ∧
    (0 : ℚ) ≤ ((1 : Nat), (3 : Nat), (1 : ℚ) / 2).2.2 := by
  have h := matrixLines_spec [(1, 1 / 2)] 3 1 3 ((1 : ℚ) / 2)
  have hm : (1, 3, (1 : ℚ) / 2) ∈ matrixLines [(1, 1 / 2)] 3 :=
    h.1.mpr ⟨1 / 2, by simp, by norm_num, rfl, by norm_num [round3, roundHalfEven]⟩
  exact ⟨hm, h.2 _ hm⟩

/-! ## Claim C5: merged matrix order and header -/

theorem entryLE_total (a b : MEntry) : entryLE a b = true ∨ entryLE b a = true := by
  simp only [entryLE, decide_eq_true_eq]
  rcases lt_trichotomy a.2.1 b.2.1 with h | h | h
  · exact Or.inl (Or.inl h)
  · rcases lt_trichotomy a.1 b.1 with h2 | h2 | h2
    · exact Or.inl (Or.inr ⟨h, Or.inl h2⟩)
    · rcases le_total a.2.2 b.2.2 with h3 | h3
      · exact Or.inl (Or.inr ⟨h, Or.inr ⟨h2, h3⟩⟩)
      · exact Or.inr (Or.inr ⟨h.symm, Or.inr ⟨h2.symm, h3⟩⟩)
    · exact Or.inr (Or.inr ⟨h.symm, Or.inl h2⟩)
  · exact Or.inr (Or.inl h)

theorem entryLE_trans (a b c : MEntry) (h1 : entryLE a b = true) (h2 : entryLE b c = true) :
    entryLE a c = true := by
  simp only [entryLE, decide_eq_true_eq] at h1 h2 ⊢
  rcases h1 with h1 | ⟨e1, h1⟩
  · rcases h2 with h2 | ⟨e2, _⟩
    · exact Or.inl (h1.trans h2)
    · exact Or.inl (e2 ▸ h1)
  · rcases h2 with h2 | ⟨e2, h2⟩
    · exact Or.inl (e1 ▸ h2)
    · refine Or.inr ⟨e1.trans e2, ?_⟩
      rcases h1 with h1 | ⟨f1, h1⟩
      · rcases h2 with h2 | ⟨f2, _⟩
        · exact Or.inl (h1.trans h2)
        · exact Or.inl (f2 ▸ h1)
      · rcases h2 with h2 | ⟨f2, h2⟩
        · exact Or.inl (f1 ▸ h2)
        · exact Or.inr ⟨f1.trans f2, h1.trans h2⟩

theorem insEntry_perm (a : MEntry) (l : List MEntry) : (insEntry a l).Perm (a :: l) := by
  induction l with
  | nil => exact List.Perm.refl _
  | cons b l ih =>
    unfold insEntry
    cases hab : entryLE a b
    · simp only [Bool.false_eq_true, if_false]
      exact (ih.cons b).trans (List.Perm.swap a b l)
    · simp only [if_true]
      exact List.Perm.refl _

theorem insEntry_sorted (a : MEntry) (l : List MEntry)
    (h : l.Pairwise (fun x y => entryLE x y = true)) :
    (insEntry a l).Pairwise (fun x y => entryLE x y = true) := by
  induction l with
  | nil => simp [insEntry]
  | cons b l ih =>
    rcases List.pairwise_cons.mp h with ⟨hb, hl⟩
    unfold insEntry
    cases hab : entryLE a b
    · simp only [Bool.false_eq_true, if_false]
      refine List.pairwise_cons.mpr ⟨?_, ih hl⟩
      intro x hx
      rcases List.mem_cons.mp ((insEntry_perm a l).mem_iff.mp hx) with rfl | hx
      · rcases entryLE_total x b with h' | h'
        · rw [hab] at h'; cases h'
        · exact h'
      · exact hb x hx
    · simp only [if_true]
      refine List.pairwise_cons.mpr ⟨?_, h⟩
      intro x hx
      rcases List.mem_cons.mp hx with rfl | hx
      · exact hab
      · exact entryLE_trans a b x hab (hb x hx)

theorem sortEntries_perm (l : List MEntry) : (sortEntries l).Perm l := by
  induction l with
  | nil => exact List.Perm.refl _
  | cons a l ih => exact (insEntry_perm a (sortEntries l)).trans (ih.cons a)

theorem sortEntries_sorted (l : List MEntry) :
    (sortEntries l).Pairwise (fun x y => entryLE x y = true) := by
  induction l with
  | nil => simp [sortEntries]
  | cons a l ih => exact insEntry_sorted a _ ih

/-- C5 counterexample: with shards `[[(1,2,1)], [(2,1,1)]]` the assembled
body is `[(2,1,1), (1,2,1)]`, which is not sorted by feature index first —
the shell sort key is `-k2,2n -k1,1n`, i.e. barcode-major. -/
theorem formatMM_not_feature_major :
    ¬ sortedByFeatureThenBarcode (formatMM [[(1, 2, 1)], [(2, 1, 1)]] 2 [2]).2 := by
  intro h
  have he : (formatMM [[(1, 2, 1)], [(2, 1, 1)]] 2 [2]).2 = [(2, 1, (1 : ℚ)), (1, 2, 1)] := rfl
  rw [sortedByFeatureThenBarcode, he] at h
  rcases List.pairwise_cons.mp h with ⟨hb, _⟩
  rcases hb (1, 2, 1) (by simp) with h2 | ⟨h2, _⟩ <;> omega

/-- C5 amended: the assembled matrix body is the concatenation of the shard
entries sorted by barcode index first and feature index second, and the
header records the feature count, the barcode count, and the total nonzero
entry count summed across shards. -/
theorem formatMM_sorted_header (shards : List (List MEntry)) (nf : Nat) (chunks : List Nat) :
    sortedByBarcodeThenFeature (formatMM shards nf chunks).2 ∧
    (formatMM shards nf chunks).2.Perm shards.flatten ∧
    (formatMM shards nf chunks).1 = (nf, chunks.sum, (shards.map List.length).sum) := by
  refine ⟨?_, sortEntries_perm _, rfl⟩
  refine (sortEntries_sorted shards.flatten).imp ?_
  intro a b hab
  simp only [entryLE, decide_eq_true_eq] at hab
  rcases hab with h | ⟨h, h2 | ⟨h2, _⟩⟩
  · exact Or.inl h
  · exact Or.inr ⟨h, le_of_lt h2⟩
  · exact Or.inr ⟨h, le_of_eq h2⟩

/-! ## Fuel stability of the pathfinder walk -/

theorem rem_mono (g : Subg) (q r : List Nat) (h : ∀ x ∈ q, x ∈ r) : rem g r ≤ rem g q := by
  refine List.Sublist.length_le (List.monotone_filter_right g.nodes ?_)
  intro x hx
  rw [decide_eq_true_eq] at hx ⊢
  exact fun hc => hx (h x hc)

theorem rem_append_lt (g : Subg) (q : List Nat) (s : Nat) (hs : s ∈ g.nodes) (hq : s ∉ q) :
    rem g (q ++ [s]) < rem g q := by
  have hsub : List.Sublist (g.nodes.filter (fun x => decide (x ∉ q ++ [s])))
      (g.nodes.filter (fun x => decide (x ∉ q))) := by
    refine List.monotone_filter_right g.nodes ?_
    intro x hx
    rw [decide_eq_true_eq] at hx ⊢
    exact fun hc => hx (List.mem_append_left _ hc)
  refine Nat.lt_of_le_of_ne (List.Sublist.length_le hsub) ?_
  intro hlen
  have heq := hsub.eq_of_length hlen
  have hmem : s ∈ g.nodes.filter (fun x => decide (x ∉ q)) :=
    List.mem_filter.mpr ⟨hs, by simpa using hq⟩
  rw [← heq] at hmem
  have := (List.mem_filter.mp hmem).2
  simp at this

theorem rem_append_lt_length (g : Subg) (q : List Nat) (s : Nat) (hs : s ∈ g.nodes) :
    rem g (q ++ [s]) < g.nodes.length := by
  have hsub : List.Sublist (g.nodes.filter (fun x => decide (x ∉ q ++ [s]))) g.nodes :=
    List.filter_sublist g.nodes
  refine Nat.lt_of_le_of_ne (List.Sublist.length_le hsub) ?_
  intro hlen
  have heq := hsub.eq_of_length hlen
  have hmem : s ∈ g.nodes.filter (fun x => decide (x ∉ q ++ [s])) := by
    rw [heq]; exact hs
  have := (List.mem_filter.mp hmem).2
  simp at this

theorem pfF_stable (g : Subg) :
    ∀ (fuel1 fuel2 node : Nat) (path : List Nat) (features : Option (Finset Nat)),
    rem g (path ++ [node]) < fuel1 → rem g (path ++ [node]) < fuel2 →
    pfF g fuel1 node path features = pfF g fuel2 node path features := by
  intro fuel1
  induction fuel1 with
  | zero => intro fuel2 node path features h1 _; omega
  | succ fuel1 ih =>
    intro fuel2 node path features h1 h2
    cases fuel2 with
    | zero => omega
    | succ fuel2 =>
      simp only [pfF]
      have main : ∀ (ss : List Nat), (∀ s ∈ ss, s ∈ g.nodes) →
          ∀ (q : List Nat), (∀ x ∈ path ++ [node], x ∈ q) →
          List.foldl
            (fun p s => if resolveAnchor g node features ∩ g.ft s ≠ ∅ ∧ s ∉ p then
              pfF g fuel1 s p (some (resolveAnchor g node features)) else p) q ss
          = List.foldl
            (fun p s => if resolveAnchor g node features ∩ g.ft s ≠ ∅ ∧ s ∉ p then
              pfF g fuel2 s p (some (resolveAnchor g node features)) else p) q ss := by
        intro ss
        induction ss with
        | nil => intro _ q _; rfl
        | cons s ss ihs =>
          intro hss q hq
          have hs : s ∈ g.nodes := hss s (List.mem_cons_self s ss)
          show List.foldl _ (if _ then _ else _) ss = List.foldl _ (if _ then _ else _) ss
          by_cases hc : resolveAnchor g node features ∩ g.ft s ≠ ∅ ∧ s ∉ q
          · rw [if_pos hc, if_pos hc]
            have hlt : rem g (q ++ [s]) < rem g q := rem_append_lt g q s hs hc.2
            have hle : rem g q ≤ rem g (path ++ [node]) := rem_mono g _ _ hq
            have heq : pfF g fuel1 s q (some (resolveAnchor g node features))
                = pfF g fuel2 s q (some (resolveAnchor g node features)) := by
              apply ih
              · omega
              · omega
            rw [heq]
            refine ihs (fun u hu => hss u (List.mem_cons_of_mem s hu)) _ ?_
            intro x hx
            exact (pfF_extends g fuel2 s q _).subset (hq x hx)
          · rw [if_neg hc, if_neg hc]
            exact ihs (fun u hu => hss u (List.mem_cons_of_mem s hu)) q hq
      exact main (succs g node) (fun s hs => mem_succs g node s hs) (path ++ [node])
        (fun x hx => hx)

theorem pathfinder_unfold (g : Subg) (node : Nat) (path : List Nat) (f : Finset Nat)
    (hf : f.Nonempty) :
    pathfinder g node path (some f)
      = (succs g node).foldl
          (fun p s => if f ∩ g.ft s ≠ ∅ ∧ s ∉ p then pathfinder g s p (some f) else p)
          (path ++ [node]) := by
  have hres : resolveAnchor g node (some f) = f := by
    simp only [resolveAnchor]
    rw [if_neg (Finset.nonempty_iff_ne_empty.mp hf)]
  unfold pathfinder
  simp only [pfF, hres]
  have main : ∀ (ss : List Nat), (∀ s ∈ ss, s ∈ g.nodes) → ∀ (q : List Nat),
      List.foldl (fun p s => if f ∩ g.ft s ≠ ∅ ∧ s ∉ p then
        pfF g g.nodes.length s p (some f) else p) q ss
      = List.foldl (fun p s => if f ∩ g.ft s ≠ ∅ ∧ s ∉ p then
        pfF g (g.nodes.length + 1) s p (some f) else p) q ss := by
    intro ss
    induction ss with
    | nil => intro _ q; rfl
    | cons s ss ihs =>
      intro hss q
      have hs : s ∈ g.nodes := hss s (List.mem_cons_self s ss)
      show List.foldl _ (if _ then _ else _) ss = List.foldl _ (if _ then _ else _) ss
      by_cases hc : f ∩ g.ft s ≠ ∅ ∧ s ∉ q
      · rw [if_pos hc, if_pos hc]
        have hstab : pfF g g.nodes.length s q (some f)
            = pfF g (g.nodes.length + 1) s q (some f) := by
          apply pfF_stable
          · exact rem_append_lt_length g q s hs
          · have := rem_append_lt_length g q s hs
            omega
        rw [hstab]
        exact ihs (fun u hu => hss u (List.mem_cons_of_mem s hu)) _
      · rw [if_neg hc, if_neg hc]
        exact ihs (fun u hu => hss u (List.mem_cons_of_mem s hu)) q
  exact main (succs g node) (fun s hs => mem_succs g node s hs) (path ++ [node])

/-! ## Claim C7: the walk is anchored to the original feature set -/

/-- C7: for every graph, start node, path and nonempty anchor feature set
`f`, one step of the depth-first walk extends the path through a successor
exactly when that successor's feature set meets the ORIGINAL anchor `f` and
the successor is not already on the path, and the recursive walk continues
with the same un-narrowed anchor `f`; consequently every node the walk adds
has a feature set meeting `f`. -/
theorem pathfinder_anchor (g : Subg) (node : Nat) (path : List Nat) (f : Finset Nat)
    (hf : f.Nonempty) :
    (pathfinder g node path (some f)
      = (succs g node).foldl
          (fun p s => if f ∩ g.ft s ≠ ∅ ∧ s ∉ p then pathfinder g s p (some f) else p)
          (path ++ [node])) ∧
    (∀ x ∈ pathfinder g node path (some f),
      x ∈ path ∨ x = node ∨ (f ∩ g.ft x).Nonempty) := by
  refine ⟨pathfinder_unfold g node path f hf, ?_⟩
  intro x hx
  exact pfF_anchor g _ node path f hf x hx

/-- Witness for C7 on the chain `0 → 1 → 2` with anchor `{10}`: the walk
reaches node 2 (whose features meet the anchor `{10}` though not node 1's own
residual features), and every walked node meets the anchor. -/
theorem pathfinder_anchor_witness :
    pathfinder chain3 0 [] (some {10}) = [0, 1, 2] ∧
    (∀ x ∈ pathfinder chain3 0 [] (some {10}),
      x ∈ ([] : List Nat) ∨ x = 0 ∨ (({10} : Finset Nat) ∩ chain3.ft x).Nonempty) :=
  ⟨rfl, (pathfinder_anchor chain3 0 [] {10} (by decide)).2⟩

/-! ## The blacklist loop partitions the subgraph -/

theorem findPathsGo_partition (G : Subg) :
    ∀ (iter : List Nat) (g : Subg) (bl : List Nat) (acc : List (List Nat)),
    (∀ x, x ∈ g.nodes ↔ (x ∈ G.nodes ∧ x ∉ bl)) →
    g.nodes.Nodup →
    acc.flatten = bl →
    bl.Nodup →
    (∀ x ∈ iter, x ∈ G.nodes) →
    (∀ x ∈ G.nodes, x ∈ bl ∨ x ∈ iter) →
    (∀ x ∈ bl, x ∈ G.nodes) →
    ((findPathsGo iter g bl acc).flatten.Nodup ∧
     ∀ x, x ∈ (findPathsGo iter g bl acc).flatten ↔ x ∈ G.nodes) := by
  intro iter
  induction iter with
  | nil =>
    intro g bl acc _ _ hacc hblnd _ hcov hblG
    simp only [findPathsGo]
    rw [hacc]
    refine ⟨hblnd, fun x => ⟨fun hx => hblG x hx, fun hx => ?_⟩⟩
    rcases hcov x hx with h | h
    · exact h
    · exact absurd h (List.not_mem_nil x)
  | cons node rest ih =>
    intro g bl acc hginv hgnd hacc hblnd hiter hcov hblG
    simp only [findPathsGo]
    by_cases hnb : node ∈ bl
    · rw [if_pos hnb]
      refine ih g bl acc hginv hgnd hacc hblnd
        (fun x hx => hiter x (List.mem_cons_of_mem _ hx)) ?_ hblG
      intro x hx
      rcases hcov x hx with h | h
      · exact Or.inl h
      · rcases List.mem_cons.mp h with rfl | h2
        · exact Or.inl hnb
        · exact Or.inr h2
    · rw [if_neg hnb]
      have hpmem : ∀ x ∈ pathfinder g node [] none, x = node ∨ x ∈ g.nodes := by
        intro x hx
        rcases pfF_mem g (g.nodes.length + 1) node [] none x hx with h | h | h
        · exact absurd h (List.not_mem_nil x)
        · exact Or.inl h
        · exact Or.inr h
      have hpnode : node ∈ pathfinder g node [] none :=
        (pfF_extends_succ g g.nodes.length node [] none).subset (by simp)
      have hpnd : (pathfinder g node [] none).Nodup :=
        pfF_nodup g (g.nodes.length + 1) node [] none (by simp)
      have hpG : ∀ x ∈ pathfinder g node [] none, x ∈ G.nodes := by
        intro x hx
        rcases hpmem x hx with rfl | h
        · exact hiter x (List.mem_cons_self _ _)
        · exact ((hginv x).mp h).1
      have hpbl : ∀ x ∈ pathfinder g node [] none, x ∉ bl := by
        intro x hx hxbl
        rcases hpmem x hx with rfl | h
        · exact hnb hxbl
        · exact ((hginv x).mp h).2 hxbl
      obtain ⟨hrem_nd, hrem_mem⟩ := eraseAll_spec (pathfinder g node [] none) g.nodes hgnd
      refine ih (removeNodes g (pathfinder g node [] none))
        (bl ++ pathfinder g node [] none) (acc ++ [pathfinder g node [] none]) ?_ hrem_nd ?_ ?_
        (fun x hx => hiter x (List.mem_cons_of_mem _ hx)) ?_ ?_
      · intro x
        show x ∈ (pathfinder g node [] none).foldl (fun ns y => ns.erase y) g.nodes ↔ _
        rw [hrem_mem x, hginv x]
        constructor
        · rintro ⟨⟨h1, h2⟩, h3⟩
          refine ⟨h1, ?_⟩
          simp only [List.mem_append, not_or]
          exact ⟨h2, h3⟩
        · rintro ⟨h1, h2⟩
          simp only [List.mem_append, not_or] at h2
          exact ⟨⟨h1, h2.1⟩, h2.2⟩
      · rw [List.flatten_append, hacc]
        simp
      · rw [List.nodup_append]
        exact ⟨hblnd, hpnd, fun x hx hx2 => hpbl x hx2 hx⟩
      · intro x hx
        rcases hcov x hx with h | h
        · exact Or.inl (List.mem_append_left _ h)
        · rcases List.mem_cons.mp h with rfl | h2
          · exact Or.inl (List.mem_append_right _ hpnode)
          · exact Or.inr h2
      · intro x hx
        rcases List.mem_append.mp hx with h | h
        · exact hblG x h
        · exact hpG x h

theorem findPaths_partition (G : Subg) (hG : G.nodes.Nodup) (parent : Nat)
    (hp : parent ∈ G.nodes) :
    (findPaths G parent).flatten.Nodup ∧
    ∀ x, x ∈ (findPaths G parent).flatten ↔ x ∈ G.nodes := by
  unfold findPaths
  refine findPathsGo_partition G _ G [] [] (fun x => by simp) hG rfl List.nodup_nil ?_ ?_ ?_
  · intro x hx
    rcases List.mem_cons.mp hx with rfl | h
    · exact hp
    · exact (List.mem_filter.mp h).1
  · intro x hx
    by_cases hxp : x = parent
    · exact Or.inr (hxp ▸ List.mem_cons_self _ _)
    · exact Or.inr (List.mem_cons_of_mem _ (List.mem_filter.mpr ⟨hx, by simpa using hxp⟩))
  · intro x hx
    exact absurd hx (List.not_mem_nil x)

/-! ## Selection of the minimal configuration -/

theorem foldl_min_le (rest : List Nat) : ∀ a : Nat,
    rest.foldl min a ≤ a ∧ ∀ x ∈ rest, rest.foldl min a ≤ x := by
  induction rest with
  | nil => intro a; exact ⟨Nat.le_refl a, fun x hx => absurd hx (List.not_mem_nil x)⟩
  | cons b rest ih =>
    intro a
    obtain ⟨h1, h2⟩ := ih (min a b)
    refine ⟨le_trans h1 (min_le_left a b), fun x hx => ?_⟩
    rcases List.mem_cons.mp hx with rfl | hx
    · exact le_trans h1 (min_le_right a x)
    · exact h2 x hx

theorem foldl_min_mem (rest : List Nat) : ∀ a : Nat,
    rest.foldl min a = a ∨ rest.foldl min a ∈ rest := by
  induction rest with
  | nil => intro a; exact Or.inl rfl
  | cons b rest ih =>
    intro a
    have hd : (b :: rest).foldl min a = rest.foldl min (min a b) := rfl
    rcases ih (min a b) with h | h
    · rw [hd, h]
      rcases Nat.le_total a b with hab | hab
      · exact Or.inl (min_eq_left hab)
      · refine Or.inr ?_
        rw [min_eq_right hab]
        exact List.mem_cons_self b rest
    · refine Or.inr ?_
      rw [hd]
      exact List.mem_cons_of_mem b h

theorem listMin_le (l : List Nat) : ∀ x ∈ l, listMin l ≤ x := by
  cases l with
  | nil => intro x hx; exact absurd hx (List.not_mem_nil x)
  | cons a rest =>
    intro x hx
    rcases List.mem_cons.mp hx with rfl | hx
    · exact (foldl_min_le rest x).1
    · exact (foldl_min_le rest a).2 x hx

theorem listMin_mem (l : List Nat) (h : l ≠ []) : listMin l ∈ l := by
  cases l with
  | nil => exact absurd rfl h
  | cons a rest =>
    show rest.foldl min a ∈ a :: rest
    rcases foldl_min_mem rest a with h2 | h2
    · rw [h2]
      exact List.mem_cons_self a rest
    · exact List.mem_cons_of_mem a h2

theorem first_min_spec {α : Type} (mlen : Nat) :
    ∀ (L : List (List α)), (∃ c ∈ L, c.length = mlen) →
    ∃ (i : Nat) (c : List α), L[i]? = some c ∧
      (L.filter (fun d => decide (d.length = mlen))).headD [] = c ∧
      c.length = mlen ∧ ∀ j : Nat, j < i → ∀ d : List α, L[j]? = some d → d.length ≠ mlen := by
  intro L
  induction L with
  | nil => rintro ⟨c, hc, _⟩; exact absurd hc (List.not_mem_nil c)
  | cons a L ih =>
    intro hex
    by_cases ha : a.length = mlen
    · refine ⟨0, a, by simp, ?_, ha, fun j hj => absurd hj (Nat.not_lt_zero j)⟩
      rw [List.filter_cons]
      simp [ha]
    · obtain ⟨c, hc, hcl⟩ := hex
      have hcL : c ∈ L := by
        rcases List.mem_cons.mp hc with rfl | h
        · exact absurd hcl ha
        · exact h
      obtain ⟨i, c', h1, h2, h3, h4⟩ := ih ⟨c, hcL, hcl⟩
      refine ⟨i + 1, c', by simpa using h1, ?_, h3, ?_⟩
      · rw [List.filter_cons]
        simpa [ha] using h2
      · intro j hj d hd
        cases j with
        | zero =>
          rw [List.getElem?_cons_zero] at hd
          cases Option.some.inj hd
          exact ha
        | succ j =>
          rw [List.getElem?_cons_succ] at hd
          exact h4 j (by omega) d hd

theorem parentsOf_subset (g : Subg) : ∀ x ∈ parentsOf g, x ∈ g.nodes := by
  intro x hx
  unfold parentsOf at hx
  split at hx
  · exact hx
  · exact (List.mem_filter.mp hx).1

theorem parentConfigs_ne_nil (g : Subg) (h : g.nodes ≠ []) : parentConfigs g ≠ [] := by
  unfold parentConfigs
  intro hc
  rw [List.map_eq_nil_iff] at hc
  unfold parentsOf at hc
  split at hc
  · exact h hc
  · rename_i hne
    exact hne hc

theorem minPaths_attained (g : Subg) (h : g.nodes ≠ []) :
    ∃ c ∈ parentConfigs g, c.length = minPaths g := by
  have hne : (parentConfigs g).map List.length ≠ [] := by
    intro hc
    rw [List.map_eq_nil_iff] at hc
    exact parentConfigs_ne_nil g h hc
  have hm := listMin_mem _ hne
  rw [List.mem_map] at hm
  obtain ⟨c, hc, hcl⟩ := hm
  exact ⟨c, hc, hcl⟩

theorem pathConfig_spec (g : Subg) (h : g.nodes ≠ []) :
    ∃ i : Nat, (parentConfigs g)[i]? = some (pathConfig g) ∧
      (pathConfig g).length = minPaths g ∧
      ∀ j : Nat, j < i → ∀ cfg : List (List Nat),
        (parentConfigs g)[j]? = some cfg → cfg.length ≠ minPaths g := by
  obtain ⟨i, c, h1, h2, h3, h4⟩ :=
    first_min_spec (minPaths g) (parentConfigs g) (minPaths_attained g h)
  have hpc : pathConfig g = c := h2
  exact ⟨i, hpc ▸ h1, hpc ▸ h3, fun j hj cfg hcfg => h4 j hj cfg hcfg⟩

theorem perm_of_nodup_mem_iff {l1 l2 : List Nat} (h1 : l1.Nodup) (h2 : l2.Nodup)
    (h : ∀ x, x ∈ l1 ↔ x ∈ l2) : l1.Perm l2 := by
  rw [List.perm_iff_count]
  intro a
  by_cases ha : a ∈ l1
  · rw [List.count_eq_one_of_mem h1 ha, List.count_eq_one_of_mem h2 ((h a).mp ha)]
  · rw [List.count_eq_zero_of_not_mem ha,
      List.count_eq_zero_of_not_mem (fun hc => ha ((h a).mpr hc))]

theorem countP_flatten_one : ∀ (L : List (List Nat)) (x : Nat), L.flatten.Nodup →
    x ∈ L.flatten → L.countP (fun p => decide (x ∈ p)) = 1 := by
  intro L
  induction L with
  | nil =>
    intro x _ hx
    exact absurd hx (List.not_mem_nil x)
  | cons p L ih =>
    intro x hnd hx
    rw [List.flatten_cons] at hnd hx
    rw [List.nodup_append] at hnd
    obtain ⟨hp, hL, hdisj⟩ := hnd
    rw [List.countP_cons]
    rcases List.mem_append.mp hx with h | h
    · have hz : L.countP (fun q => decide (x ∈ q)) = 0 := by
        rw [List.countP_eq_zero]
        intro q hq
        simp only [decide_eq_true_eq]
        intro hxq
        exact hdisj h (List.mem_flatten.mpr ⟨q, hq, hxq⟩)
      rw [hz]
      simp [h]
    · have hxp : x ∉ p := fun hc => hdisj hc h
      rw [ih x hL h]
      simp [hxp]

/-! ## Claim C2: the chosen configuration partitions the subgraph -/

/-- C2: for every subgraph with duplicate-free node list, the selected path
configuration partitions the subgraph's nodes — the concatenation of its
paths is a permutation of the node list, and every node lies in exactly one
path (this covers all graph shapes, including a pure bidirectional 2-cycle
with no parent node, where the parents fall back to all nodes). -/
theorem pathConfig_partition (g : Subg) (hnd : g.nodes.Nodup) :
    (pathConfig g).flatten.Perm g.nodes ∧
    ∀ x ∈ g.nodes, (pathConfig g).countP (fun p => decide (x ∈ p)) = 1 := by
  by_cases hne : g.nodes = []
  · have hpc : pathConfig g = [] := by
      unfold pathConfig parentConfigs parentsOf parentsRaw
      rw [hne]
      simp
    rw [hpc, hne]
    exact ⟨List.Perm.refl _, fun x hx => absurd hx (List.not_mem_nil x)⟩
  · obtain ⟨i, h1, _, _⟩ := pathConfig_spec g hne
    have hmem : pathConfig g ∈ parentConfigs g := List.getElem?_mem h1
    obtain ⟨parent, hpar, hfp⟩ := List.mem_map.mp hmem
    have hpG : parent ∈ g.nodes := parentsOf_subset g parent hpar
    obtain ⟨hnd2, hmemiff⟩ := findPaths_partition g hnd parent hpG
    rw [hfp] at hnd2 hmemiff
    refine ⟨perm_of_nodup_mem_iff hnd2 hnd hmemiff, fun x hx => ?_⟩
    exact countP_flatten_one _ x hnd2 ((hmemiff x).mpr hx)

/-- Witness for C2 at the bidirectional 2-cycle: the chosen configuration's
paths cover the two nodes exactly once. -/
theorem pathConfig_partition_witness :
    (pathConfig cyc2).flatten.Perm cyc2.nodes ∧
    (pathConfig cyc2).countP (fun p => decide (0 ∈ p)) = 1 :=
  ⟨(pathConfig_partition cyc2 (by decide)).1,
   (pathConfig_partition cyc2 (by decide)).2 0 (by decide)⟩

/-! ## Claim C3: parsimony of the selected configuration -/

/-- C3: for every nonempty subgraph, the selected path configuration has at
most as many paths as the configuration of every other candidate parent, and
it is the first configuration attaining the minimum in parent iteration
order (every earlier parent's configuration is strictly longer). -/
theorem pathConfig_minimal (g : Subg) (h : g.nodes ≠ []) :
    (∀ cfg ∈ parentConfigs g, (pathConfig g).length ≤ cfg.length) ∧
    ∃ i : Nat, (parentConfigs g)[i]? = some (pathConfig g) ∧
      ∀ j : Nat, j < i → ∀ cfg : List (List Nat), (parentConfigs g)[j]? = some cfg →
        (pathConfig g).length < cfg.length := by
  obtain ⟨i, h1, h2, h3⟩ := pathConfig_spec g h
  have hmin : ∀ cfg ∈ parentConfigs g, minPaths g ≤ cfg.length := by
    intro cfg hcfg
    exact listMin_le _ _ (List.mem_map_of_mem List.length hcfg)
  refine ⟨fun cfg hcfg => h2 ▸ hmin cfg hcfg, i, h1, fun j hj cfg hcfg => ?_⟩
  have hne2 := h3 j hj cfg hcfg
  have hle := hmin cfg (List.getElem?_mem hcfg)
  omega

/-- Witness for C3 at the bidirectional 2-cycle: the chosen configuration is
no longer than the configuration enumerated from parent 1. -/
theorem pathConfig_minimal_witness :
    (pathConfig cyc2).length ≤ (findPaths cyc2 1).length :=
  (pathConfig_minimal cyc2 (by decide)).1 (findPaths cyc2 1) (by decide)

/-! ## Claim C6: the no-parent edge case -/

theorem foldl_union_mem (g : Subg) (t : Nat) :
    ∀ (l : List Nat) (acc : Finset Nat),
    (t ∈ l.foldl (fun a v => a ∪ g.ft v) acc ↔ t ∈ acc ∨ ∃ v ∈ l, t ∈ g.ft v) := by
  intro l
  induction l with
  | nil => intro acc; simp
  | cons b l ih =>
    intro acc
    rw [List.foldl_cons, ih (acc ∪ g.ft b)]
    simp only [Finset.mem_union, List.mem_cons]
    constructor
    · rintro ((h | h) | ⟨v, hv, ht⟩)
      · exact Or.inl h
      · exact Or.inr ⟨b, Or.inl rfl, h⟩
      · exact Or.inr ⟨v, Or.inr hv, ht⟩
    · rintro (h | ⟨v, (rfl | hv), ht⟩)
      · exact Or.inl (Or.inl h)
      · exact Or.inl (Or.inr ht)
      · exact Or.inr ⟨v, hv, ht⟩

theorem mem_unionFt (g : Subg) (t : Nat) : t ∈ unionFt g ↔ ∃ v ∈ g.nodes, t ∈ g.ft v := by
  unfold unionFt
  rw [foldl_union_mem]
  simp

/-- C6: in a nonempty subgraph where every node has an incoming edge (a pure
bidirectional cycle), every node is treated as a parent, and every path of
the selected configuration is assigned the same feature set, namely the
union of all nodes' feature sets, regardless of which nodes the path
contains. -/
theorem noParent_union_features (g : Subg)
    (hnp : ∀ v ∈ g.nodes, preds g v ≠ []) :
    parentsOf g = g.nodes ∧
    (assignedFeatures g).length = (pathConfig g).length ∧
    ∀ fs ∈ assignedFeatures g, ∀ t, t ∈ fs ↔ ∃ v ∈ g.nodes, t ∈ g.ft v := by
  have hraw : parentsRaw g = [] := by
    unfold parentsRaw
    rw [List.filter_eq_nil_iff]
    intro v hv
    simpa using hnp v hv
  refine ⟨?_, ?_, ?_⟩
  · unfold parentsOf
    rw [if_pos hraw]
  · unfold assignedFeatures
    rw [if_pos hraw, List.length_replicate]
  · intro fs hfs t
    unfold assignedFeatures at hfs
    rw [if_pos hraw] at hfs
    rw [List.eq_of_mem_replicate hfs]
    exact mem_unionFt g t

/-- Witness for C6 at the bidirectional 2-cycle: both nodes are parents and
the assigned feature list replicates the union once per path. -/
theorem noParent_union_features_witness :
    parentsOf cyc2 = cyc2.nodes ∧
    (assignedFeatures cyc2).length = (pathConfig cyc2).length :=
  ⟨(noParent_union_features cyc2 (by decide)).1,
   (noParent_union_features cyc2 (by decide)).2.1⟩

end Irescue
